import Mathlib

/-
Verification of the keyedstablehash library: a shallow embedding of
`siphash.py` (streaming SipHash-2-4), `canonical.py` (canonical value
encoding) and `stable.py` (orchestration), with proofs of the behavioural
properties stated in the specification.

Bytes are modelled as `Nat` (each < 256 wherever produced), byte strings as
`List Nat`, Python's unbounded `int` as `Int`, and Python exceptions as
`Except PyErr`.
-/

/-! ## SipHash-2-4 engine (siphash.py) -/

/-- Mask for 64-bit arithmetic, mirroring `_MASK_64` in siphash.py. -/
def MASK64 : Nat := 0xFFFFFFFFFFFFFFFF

/-- Rotate left for 64-bit values (`_rotl` in siphash.py). -/
def rotl (x b : Nat) : Nat := ((x <<< b) ||| (x >>> (64 - b))) &&& MASK64

/-- Little-endian value of a byte list (struct.unpack "<Q" on 8 bytes). -/
def leVal (bs : List Nat) : Nat := bs.foldr (fun b acc => b + 256 * acc) 0

/-- Little-endian byte list of a value (struct.pack "<Q" when the width is 8). -/
def natToLE : Nat → Nat → List Nat
  | _, 0 => []
  | n, l + 1 => n % 256 :: natToLE (n / 256) l

/-- State of the streaming SipHash-2-4 hasher: the four 64-bit words, the
buffered partial block and the running length (`SipHash24` in siphash.py). -/
structure SipHash24 where
  v0 : Nat
  v1 : Nat
  v2 : Nat
  v3 : Nat
  tail : List Nat
  total_len : Nat
deriving DecidableEq

/-- `SipHash24.__init__` state initialization from a 16-byte key. -/
def sipInitRaw (key : List Nat) : SipHash24 :=
  let k0 := leVal (key.take 8)
  let k1 := leVal ((key.drop 8).take 8)
  { v0 := 0x736F6D6570736575 ^^^ k0
    v1 := 0x646F72616E646F6D ^^^ k1
    v2 := 0x6C7967656E657261 ^^^ k0
    v3 := 0x7465646279746573 ^^^ k1
    tail := []
    total_len := 0 }

/-- `SipHash24._sip_round`: one ARX round with rotation amounts 13, 32, 16,
21, 17, 32. -/
def sipRound (s : SipHash24) : SipHash24 :=
  let v0 := (s.v0 + s.v1) &&& MASK64
  let v1 := rotl s.v1 13
  let v1 := v1 ^^^ v0
  let v0 := rotl v0 32
  let v2 := (s.v2 + s.v3) &&& MASK64
  let v3 := rotl s.v3 16
  let v3 := v3 ^^^ v2
  let v0 := (v0 + v3) &&& MASK64
  let v3 := rotl v3 21
  let v3 := v3 ^^^ v0
  let v2 := (v2 + v1) &&& MASK64
  let v1 := rotl v1 17
  let v1 := v1 ^^^ v2
  let v2 := rotl v2 32
  { s with v0 := v0, v1 := v1, v2 := v2, v3 := v3 }

/-- `SipHash24._compress`: fold one 64-bit message word (XOR into v3, two
rounds, XOR into v0). -/
def sipCompress (s : SipHash24) (m : Nat) : SipHash24 :=
  let s := { s with v3 := s.v3 ^^^ m }
  let s := sipRound (sipRound s)
  { s with v0 := s.v0 ^^^ m }

/-- The block loop inside `SipHash24.update`: consume the full 8-byte blocks
of `raw` in order, return the updated state and the remaining (< 8) bytes. -/
def processBlocks : SipHash24 → List Nat → SipHash24 × List Nat
  | s, b0 :: b1 :: b2 :: b3 :: b4 :: b5 :: b6 :: b7 :: rest =>
      processBlocks (sipCompress s (leVal [b0, b1, b2, b3, b4, b5, b6, b7])) rest
  | s, raw => (s, raw)

/-- `SipHash24.update`: prepend the buffered tail, bump the length counter,
compress whole blocks, buffer the remainder. -/
def sipUpdate (s : SipHash24) (data : List Nat) : SipHash24 :=
  let raw := s.tail ++ data
  let p := processBlocks { s with total_len := s.total_len + data.length, tail := [] } raw
  { p.1 with tail := p.2 }

/-- The final-block construction in `SipHash24._finalize`: the buffered tail
bytes in their original positions, OR-ed below the length byte. -/
def tailBlock : Nat → List Nat → Nat → Nat
  | b, [], _ => b
  | b, v :: rest, idx => tailBlock (b ||| (v <<< (8 * idx))) rest (idx + 1)

/-- `SipHash24._finalize` as a value-and-state transformer (the Python method
mutates `self`, so the post-state is returned explicitly). -/
def sipFinalizeSt (s : SipHash24) : Nat × SipHash24 :=
  let b := tailBlock ((s.total_len &&& 0xFF) <<< 56) s.tail 0
  let s := sipCompress s b
  let s := { s with v2 := s.v2 ^^^ 0xFF }
  let s := sipRound (sipRound (sipRound (sipRound s)))
  ((s.v0 ^^^ s.v1 ^^^ s.v2 ^^^ s.v3) &&& MASK64, s)

/-- `SipHash24.copy`: field-by-field duplication into a fresh state. -/
def sipCopy (s : SipHash24) : SipHash24 :=
  { v0 := s.v0, v1 := s.v1, v2 := s.v2, v3 := s.v3
    tail := s.tail, total_len := s.total_len }

/-- `SipHash24.digest` as a value-and-state transformer: finalizes a copy and
leaves `self` exactly as it was. -/
def sipDigestSt (s : SipHash24) : List Nat × SipHash24 :=
  (natToLE (sipFinalizeSt (sipCopy s)).1 8, s)

/-- Hex digit of a nibble, lowercase (as `bytes.hex`). -/
def hexChar (n : Nat) : Char := if n < 10 then Char.ofNat (48 + n) else Char.ofNat (87 + n)

/-- Two lowercase hex digits of one byte. -/
def byteHex (b : Nat) : String := String.mk [hexChar (b / 16), hexChar (b % 16)]

/-- Lowercase hex string of a byte list (`bytes.hex`). -/
def hexOfBytes (bs : List Nat) : String := String.join (bs.map byteHex)

/-- `SipHash24.hexdigest` as a value-and-state transformer. -/
def sipHexdigestSt (s : SipHash24) : String × SipHash24 :=
  (hexOfBytes (sipDigestSt s).1, (sipDigestSt s).2)

/-- `SipHash24.intdigest` as a value-and-state transformer: finalizes a copy. -/
def sipIntdigestSt (s : SipHash24) : Nat × SipHash24 :=
  ((sipFinalizeSt (sipCopy s)).1, s)

/-- The digest bytes of a hasher state. -/
def sipDigest (s : SipHash24) : List Nat := (sipDigestSt s).1

/-- The hex digest of a hasher state. -/
def sipHexdigest (s : SipHash24) : String := (sipHexdigestSt s).1

/-- Hex digest for the reference-vector setting: key `00 01 .. 0F`, message
the first `n` bytes of `0, 1, 2, ...`. -/
def sipVector (n : Nat) : String :=
  sipHexdigest (sipUpdate (sipInitRaw (List.range 16)) (List.range n))

/-! ## Byte-likeness and the checked constructor / update (siphash.py) -/

/-- The possible runtime types of a `key` / `data` argument: the three
byte-like types accepted by the `isinstance` checks, or anything else. -/
inductive PyData where
  | bytes (d : List Nat)
  | bytearray (d : List Nat)
  | memoryview (d : List Nat)
  | other (tyname : String)
deriving DecidableEq

/-- Python exceptions raised by the library. -/
inductive PyErr where
  | typeError (msg : String)
  | valueError (msg : String)
deriving DecidableEq

/-- `isinstance(x, (bytes, bytearray, memoryview))`. -/
def PyData.isBytesLike : PyData → Bool
  | .other _ => false
  | _ => true

/-- `bytes(x)` for a byte-like value: the underlying byte content. -/
def PyData.toBytes : PyData → List Nat
  | .bytes d => d
  | .bytearray d => d
  | .memoryview d => d
  | .other _ => []

/-- `SipHash24.__init__` with its validation: type check first, then the
16-byte length check. -/
def sipInit (key : PyData) : Except PyErr SipHash24 :=
  if key.isBytesLike = false then .error (.typeError "key must be bytes-like")
  else
    let key_bytes := key.toBytes
    if key_bytes.length ≠ 16 then
      .error (.valueError "SipHash24 key must be exactly 16 bytes")
    else .ok (sipInitRaw key_bytes)

/-- `SipHash24.update` with its validation: type check, then the unchecked
update on the byte content. -/
def sipUpdateChecked (s : SipHash24) (data : PyData) : Except PyErr SipHash24 :=
  if data.isBytesLike = false then .error (.typeError "data must be bytes-like")
  else .ok (sipUpdate s data.toBytes)

/-! ## Canonical encoding (canonical.py) -/

/-- struct.pack "<Q": the 8-byte little-endian length (`_encode_length`). -/
def encLen (n : Nat) : List Nat := natToLE n 8

/-- Fuel-driven binary length; `bitLength n` below instantiates the fuel. -/
def bitLenF : Nat → Nat → Nat
  | _, 0 => 0
  | 0, _ + 1 => 0
  | f + 1, n + 1 => bitLenF f ((n + 1) / 2) + 1

/-- Python's `int.bit_length` for nonnegative values. -/
def bitLength (n : Nat) : Nat := bitLenF n n

/-- Big-endian base-256 digits of `n` on exactly `l` bytes
(`int.to_bytes(l, "big")` applied to the unsigned residue). -/
def toBytesBE : Nat → Nat → List Nat
  | _, 0 => []
  | n, l + 1 => toBytesBE (n / 256) l ++ [n % 256]

/-- `_encode_int`: minimal-length big-endian two's-complement encoding of an
arbitrary-precision integer; zero is the single byte 0x00. -/
def encode_int (v : Int) : List Nat :=
  if v = 0 then [0x00]
  else
    let length := if v < 0 then max 1 ((bitLength (-v - 1).toNat + 8) / 8)
                  else max 1 ((bitLength v.toNat + 8) / 8)
    toBytesBE (v % ((2 : Int) ^ (8 * length))).toNat length

/-- The Python value universe seen by `feed_canonical`. A `pyfloat` carries
the 8 bytes of `struct.pack "<d"`; a `pystr` carries its UTF-8 bytes; a
`pyobj` is a value with a `__dict__`, carrying its fully-qualified type name
(UTF-8) and its field mapping; a `pyother` is a value of an unsupported
type with no `__dict__`, carrying its type name for the error message. -/
inductive Value where
  | pynone
  | pybool (b : Bool)
  | pyint (n : Int)
  | pyfloat (bits : List Nat)
  | pybytes (d : List Nat)
  | pystr (utf8 : List Nat)
  | pylist (items : List Value)
  | pytuple (items : List Value)
  | pyset (items : List Value)
  | pydict (pairs : List (Value × Value))
  | pyobj (tyname : List Nat) (fields : List (Value × Value))
  | pyother (tyname : String)

/-- Sort relation used by `_handle_mapping`'s `sort(key=...)`: compare the
encoded key bytes only. -/
def keyLe (p q : List Nat × List Nat) : Prop := p.1 ≤ q.1

instance : DecidableRel keyLe := fun p q => inferInstanceAs (Decidable (p.1 ≤ q.1))

/-- Strict version of `keyLe`, used only in proofs about sorted pair lists. -/
def keyLt (p q : List Nat × List Nat) : Prop := p.1 < q.1

instance : DecidableRel keyLt := fun p q => inferInstanceAs (Decidable (p.1 < q.1))

instance : IsTotal (List Nat × List Nat) keyLe := ⟨fun p q => le_total p.1 q.1⟩

instance : IsTrans (List Nat × List Nat) keyLe := ⟨fun _ _ _ h1 h2 => le_trans h1 h2⟩

instance : IsAntisymm (List Nat × List Nat) keyLt :=
  ⟨fun _ _ h1 h2 => absurd (lt_trans h1 h2) (lt_irrefl _)⟩

mutual

/-- `feed_canonical` with the `_handle_*` dispatch of canonical.py, producing
the complete canonical byte stream of a value, or the `TypeError` raised by
`_try_handle_object` for a value with no handler and no `__dict__`. -/
def encodeVal : Value → Except PyErr (List Nat)
  | .pynone => .ok [0x4E]
  | .pybool b => .ok [0x42, if b then 1 else 0]
  | .pyint n => .ok (0x49 :: (encLen (encode_int n).length ++ encode_int n))
  | .pyfloat bits => .ok (0x46 :: bits)
  | .pybytes d => .ok (0x59 :: (encLen d.length ++ d))
  | .pystr u => .ok (0x53 :: (encLen u.length ++ u))
  | .pylist items =>
      match encodeItems items with
      | .error e => .error e
      | .ok es => .ok (0x4C :: (encLen items.length ++ es.flatten))
  | .pytuple items =>
      match encodeItems items with
      | .error e => .error e
      | .ok es => .ok (0x54 :: (encLen items.length ++ es.flatten))
  | .pyset items =>
      match encodeItems items with
      | .error e => .error e
      | .ok es =>
          .ok (0x45 :: (encLen es.length ++
            ((List.insertionSort (· ≤ ·) es).map (fun c => encLen c.length ++ c)).flatten))
  | .pydict pairs => encodeMapping pairs
  | .pyobj ty fields =>
      match encodeMapping fields with
      | .error e => .error e
      | .ok d => .ok (0x4F :: (encLen ty.length ++ ty ++ d))
  | .pyother t => .error (.typeError ("Unsupported type for stable hashing: " ++ t))
termination_by v => (sizeOf v, 1)

/-- `_handle_mapping`: encode every pair, sort by encoded key bytes (stable,
key only), then emit tag `D`, the pair count, and length-prefixed keys and
values. -/
def encodeMapping (pairs : List (Value × Value)) : Except PyErr (List Nat) :=
  match encodePairs pairs with
  | .error e => .error e
  | .ok es =>
      .ok (0x44 :: (encLen es.length ++
        ((List.insertionSort keyLe es).map
          (fun p => encLen p.1.length ++ p.1 ++ encLen p.2.length ++ p.2)).flatten))
termination_by (sizeOf pairs, 1)

/-- The per-element encoding loop of `_handle_sequence` / `_handle_set`:
first failure propagated. -/
def encodeItems : List Value → Except PyErr (List (List Nat))
  | [] => .ok []
  | v :: rest =>
      match encodeVal v with
      | .error e => .error e
      | .ok e =>
          match encodeItems rest with
          | .error err => .error err
          | .ok es => .ok (e :: es)
termination_by l => (sizeOf l, 0)

/-- The per-pair encoding loop of `_handle_mapping`: first failure propagated. -/
def encodePairs : List (Value × Value) → Except PyErr (List (List Nat × List Nat))
  | [] => .ok []
  | (k, v) :: rest =>
      match encodeVal k with
      | .error e => .error e
      | .ok ke =>
          match encodeVal v with
          | .error e => .error e
          | .ok ve =>
              match encodePairs rest with
              | .error err => .error err
              | .ok es => .ok ((ke, ve) :: es)
termination_by l => (sizeOf l, 0)

end

/-- The encoding of a value known to encode successfully (defaults to `[]`
on the error branch, which the lemmas below never rely on). -/
def encOf (v : Value) : List Nat :=
  match encodeVal v with
  | .ok e => e
  | .error _ => []

mutual

/-- Whether a value contains, at any depth, a component of an unsupported
type (one with no `_handle_*` case and no `__dict__`). -/
def hasUnsup : Value → Bool
  | .pylist items => hasUnsupList items
  | .pytuple items => hasUnsupList items
  | .pyset items => hasUnsupList items
  | .pydict pairs => hasUnsupPairs pairs
  | .pyobj _ fields => hasUnsupPairs fields
  | .pyother _ => true
  | _ => false
termination_by v => sizeOf v

/-- `hasUnsup` over the elements of a list. -/
def hasUnsupList : List Value → Bool
  | [] => false
  | v :: rest => hasUnsup v || hasUnsupList rest
termination_by l => sizeOf l

/-- `hasUnsup` over the pairs of a mapping. -/
def hasUnsupPairs : List (Value × Value) → Bool
  | [] => false
  | (k, v) :: rest => hasUnsup k || hasUnsup v || hasUnsupPairs rest
termination_by l => sizeOf l

end

/-- ASCII lowercase of one character (`str.lower` acts per character). -/
def asciiLower (c : Char) : Char :=
  if 65 ≤ c.toNat ∧ c.toNat ≤ 90 then Char.ofNat (c.toNat + 32) else c

/-- `str.lower` for the algorithm name. -/
def strLower (s : String) : String := String.mk (s.data.map asciiLower)

/-- The `TypeError` raised by `_try_handle_object` for an unsupported type
named `t`. -/
def unsupMsg (t : String) : PyErr := .typeError ("Unsupported type for stable hashing: " ++ t)

/-! ## Orchestration (stable.py) -/

/-- `stable_keyed_hash`: select the algorithm (case-insensitively), construct
the keyed hasher (with its key validation), stream the canonical encoding
into it, and return the 8 digest bytes. -/
def stableKeyedHash (v : Value) (key : PyData) (algo : String) : Except PyErr (List Nat) :=
  if strLower algo = "siphash24" then
    match sipInit key with
    | .error e => .error e
    | .ok h =>
        match encodeVal v with
        | .error e => .error e
        | .ok enc => .ok (sipDigest (sipUpdate h enc))
  else .error (.valueError ("Unsupported algorithm: " ++ algo))

/-! ## Specification-side definitions used for refinement statements -/

/-- Big-endian unsigned value of a byte list (specification side). -/
def beVal (bs : List Nat) : Nat := bs.foldl (fun acc b => 256 * acc + b) 0

/-- Signed (two's-complement) big-endian interpretation of a nonempty byte
list (specification side). -/
def fromSignedBE (bs : List Nat) : Int :=
  if 2 * beVal bs < 2 ^ (8 * bs.length) then (beVal bs : Int)
  else (beVal bs : Int) - 2 ^ (8 * bs.length)

/-- `n` fits in `L` bytes of signed two's-complement, `L ≥ 1`
(specification side: the spec's notion of an admissible byte count). -/
def SignedFits (n : Int) (L : Nat) : Prop :=
  1 ≤ L ∧ -((2 : Int) ^ (8 * L - 1)) ≤ n ∧ n < (2 : Int) ^ (8 * L - 1)

/-! ## Helper lemmas -/

theorem sipRound_frame (s : SipHash24) (u : List Nat) (t : Nat) :
    sipRound { s with tail := u, total_len := t }
      = { sipRound s with tail := u, total_len := t } := rfl

theorem sipCompress_frame (s : SipHash24) (m : Nat) (u : List Nat) (t : Nat) :
    sipCompress { s with tail := u, total_len := t } m
      = { sipCompress s m with tail := u, total_len := t } := rfl

theorem processBlocks_not8 (s : SipHash24) (raw : List Nat)
    (h : ∀ (b0 b1 b2 b3 b4 b5 b6 b7 : Nat) (rest : List Nat),
        raw = b0 :: b1 :: b2 :: b3 :: b4 :: b5 :: b6 :: b7 :: rest → False) :
    processBlocks s raw = (s, raw) := by
  rcases raw with _ | ⟨a0, _ | ⟨a1, _ | ⟨a2, _ | ⟨a3, _ | ⟨a4, _ | ⟨a5, _ | ⟨a6, _ | ⟨a7, rest⟩⟩⟩⟩⟩⟩⟩⟩
  all_goals first
    | rfl
    | exact (h a0 a1 a2 a3 a4 a5 a6 a7 rest rfl).elim

theorem processBlocks_frame (s : SipHash24) (raw : List Nat) (u : List Nat) (t : Nat) :
    processBlocks { s with tail := u, total_len := t } raw
      = ({ (processBlocks s raw).1 with tail := u, total_len := t },
         (processBlocks s raw).2) := by
  induction s, raw using processBlocks.induct with
  | case1 s b0 b1 b2 b3 b4 b5 b6 b7 rest ih =>
      simp only [processBlocks]
      rw [sipCompress_frame, ih]
  | case2 s raw h =>
      rw [processBlocks_not8 _ raw h, processBlocks_not8 _ raw h]

theorem processBlocks_snd_short (s : SipHash24) (raw : List Nat) :
    ((processBlocks s raw).2).length < 8 := by
  induction s, raw using processBlocks.induct with
  | case1 s b0 b1 b2 b3 b4 b5 b6 b7 rest ih =>
      simp only [processBlocks]
      exact ih
  | case2 s raw h =>
      rw [processBlocks_not8 _ raw h]
      rcases raw with _ | ⟨a0, _ | ⟨a1, _ | ⟨a2, _ | ⟨a3, _ | ⟨a4, _ | ⟨a5, _ | ⟨a6, _ | ⟨a7, rest⟩⟩⟩⟩⟩⟩⟩⟩ <;>
        first
        | exact (h a0 a1 a2 a3 a4 a5 a6 a7 rest rfl).elim
        | simp

theorem processBlocks_append (s : SipHash24) (xs ys : List Nat) :
    processBlocks s (xs ++ ys)
      = processBlocks (processBlocks s xs).1 ((processBlocks s xs).2 ++ ys) := by
  induction s, xs using processBlocks.induct with
  | case1 s b0 b1 b2 b3 b4 b5 b6 b7 rest ih =>
      simp only [List.cons_append, processBlocks]
      exact ih
  | case2 s raw h =>
      rw [processBlocks_not8 _ raw h]

theorem processBlocks_keeps (s : SipHash24) (raw : List Nat) :
    (processBlocks s raw).1.tail = s.tail ∧ (processBlocks s raw).1.total_len = s.total_len := by
  induction s, raw using processBlocks.induct with
  | case1 s b0 b1 b2 b3 b4 b5 b6 b7 rest ih =>
      simp only [processBlocks]
      exact ih
  | case2 s raw h =>
      rw [processBlocks_not8 _ raw h]
      exact ⟨rfl, rfl⟩

theorem sipUpdate_chunk (s : SipHash24) (a b : List Nat) :
    sipUpdate (sipUpdate s a) b = sipUpdate s (a ++ b) := by
  simp only [sipUpdate, List.length_append]
  rw [processBlocks_frame s (s.tail ++ a) [] (s.total_len + a.length)]
  rw [processBlocks_frame s (s.tail ++ (a ++ b)) [] (s.total_len + (a.length + b.length))]
  simp only []
  rw [processBlocks_frame (processBlocks s (s.tail ++ a)).1
        ((processBlocks s (s.tail ++ a)).2 ++ b) []
        (s.total_len + a.length + b.length)]
  rw [show s.tail ++ (a ++ b) = (s.tail ++ a) ++ b from (List.append_assoc _ _ _).symm]
  rw [processBlocks_append s (s.tail ++ a) b]
  simp [Nat.add_assoc]

theorem sipUpdate_foldl (s : SipHash24) (c : List Nat) (chunks : List (List Nat)) :
    List.foldl sipUpdate (sipUpdate s c) chunks = sipUpdate s (c :: chunks).flatten := by
  induction chunks generalizing s c with
  | nil => simp
  | cons d rest ih =>
      simp only [List.foldl_cons]
      rw [sipUpdate_chunk s c d, ih]
      simp

theorem bitLenF_le_iff : ∀ f n k : Nat, n ≤ f → (bitLenF f n ≤ k ↔ n < 2 ^ k) := by
  intro f
  induction f with
  | zero =>
      intro n k hnf
      interval_cases n
      simp [bitLenF, Nat.pos_pow_of_pos]
  | succ f ih =>
      intro n k hnf
      cases n with
      | zero => simp [bitLenF, Nat.pos_pow_of_pos]
      | succ m =>
          rw [show bitLenF (f + 1) (m + 1) = bitLenF f ((m + 1) / 2) + 1 from rfl]
          have hle : (m + 1) / 2 ≤ f := by
            have := Nat.div_lt_self (Nat.succ_pos m) (by norm_num : 1 < 2)
            omega
          cases k with
          | zero =>
              simp only [Nat.pow_zero]
              omega
          | succ k =>
              rw [Nat.add_le_add_iff_right, ih _ k hle, pow_succ]
              rw [Nat.div_lt_iff_lt_mul (by norm_num : 0 < 2)]

theorem bitLength_le_iff (n k : Nat) : bitLength n ≤ k ↔ n < 2 ^ k :=
  bitLenF_le_iff n n k le_rfl

theorem toBytesBE_length : ∀ (n l : Nat), (toBytesBE n l).length = l := by
  intro n l
  induction l generalizing n with
  | zero => rfl
  | succ l ih => simp [toBytesBE, ih]

theorem toBytesBE_mem_lt : ∀ (n l : Nat), ∀ b ∈ toBytesBE n l, b < 256 := by
  intro n l
  induction l generalizing n with
  | zero => simp [toBytesBE]
  | succ l ih =>
      intro b hb
      rw [toBytesBE] at hb
      rcases List.mem_append.1 hb with h | h
      · exact ih _ b h
      · simp at h
        subst h
        exact Nat.mod_lt _ (by norm_num)

theorem beVal_toBytesBE : ∀ (n l : Nat), beVal (toBytesBE n l) = n % 256 ^ l := by
  intro n l
  induction l generalizing n with
  | zero => simp [toBytesBE, beVal, Nat.mod_one]
  | succ l ih =>
      rw [toBytesBE]
      have happ : beVal (toBytesBE (n / 256) l ++ [n % 256])
          = 256 * beVal (toBytesBE (n / 256) l) + n % 256 := by
        simp [beVal, List.foldl_append]
      rw [happ, ih, pow_succ', Nat.mod_mul]
      omega

theorem encode_int_spec (n : Int) :
    SignedFits n (encode_int n).length
    ∧ (∀ L, SignedFits n L → (encode_int n).length ≤ L)
    ∧ fromSignedBE (encode_int n) = n
    ∧ ∀ b ∈ encode_int n, b < 256 := by
  rcases lt_trichotomy n 0 with hneg | hzero | hpos
  · -- negative case
    obtain ⟨m, rfl⟩ : ∃ m : ℕ, n = -((m : ℤ) + 1) := ⟨(-n - 1).toNat, by omega⟩
    have hne : -((m : ℤ) + 1) ≠ 0 := by omega
    have hlt : -((m : ℤ) + 1) < 0 := by omega
    have htn : (-(-((m : ℤ) + 1)) - 1).toNat = m := by omega
    set bl := bitLength m with hbl
    have hlen : encode_int (-((m : ℤ) + 1))
        = toBytesBE ((-((m : ℤ) + 1)) % ((2 : ℤ) ^ (8 * ((bl + 8) / 8))) |>.toNat) ((bl + 8) / 8) := by
      rw [encode_int, if_neg hne, if_pos hlt, htn]
      have : max 1 ((bl + 8) / 8) = (bl + 8) / 8 := by omega
      rw [this]
    set L := (bl + 8) / 8 with hL
    have hL1 : 1 ≤ L := by omega
    have hblL : bl ≤ 8 * L - 1 := by omega
    have hmP : m < 2 ^ (8 * L - 1) := (bitLength_le_iff m (8 * L - 1)).1 hblL
    have hMP : (2 : ℕ) ^ (8 * L) = 2 * 2 ^ (8 * L - 1) := by
      rw [← pow_succ']
      congr 1
      omega
    -- the encoded residue
    have hmodeq : (-((m : ℤ) + 1)) % ((2 : ℤ) ^ (8 * L))
        = -((m : ℤ) + 1) + 2 ^ (8 * L) := by
      have h1 : (-((m : ℤ) + 1) + 2 ^ (8 * L) * 1) % (2 ^ (8 * L))
          = (-((m : ℤ) + 1)) % (2 ^ (8 * L)) :=
        Int.add_mul_emod_self_left (-((m : ℤ) + 1)) ((2 : ℤ) ^ (8 * L)) 1
      have hmle : m + 1 ≤ 2 ^ (8 * L) := by omega
      have h2 : (0 : ℤ) ≤ -((m : ℤ) + 1) + 2 ^ (8 * L) := by
        have : ((m : ℤ) + 1) ≤ 2 ^ (8 * L) := by exact_mod_cast hmle
        omega
      have h3 : -((m : ℤ) + 1) + 2 ^ (8 * L) < 2 ^ (8 * L) := by omega
      rw [mul_one] at h1
      rw [← h1, Int.emod_eq_of_lt h2 h3]
    have hufact : ((-((m : ℤ) + 1)) % ((2 : ℤ) ^ (8 * L))).toNat = 2 ^ (8 * L) - (m + 1) := by
      have hcastM : ((2 : ℤ) ^ (8 * L)) = (((2 : ℕ) ^ (8 * L) : ℕ) : ℤ) := by push_cast; rfl
      rw [hmodeq, hcastM]
      have hmle : m + 1 ≤ 2 ^ (8 * L) := by omega
      omega
    set u := (2: ℕ) ^ (8 * L) - (m + 1) with hu
    rw [hufact] at hlen
    have hlength : (encode_int (-((m : ℤ) + 1))).length = L := by
      rw [hlen, toBytesBE_length]
    have hfits : SignedFits (-((m : ℤ) + 1)) L := by
      refine ⟨hL1, ?_, ?_⟩
      · have hmle1 : m + 1 ≤ 2 ^ (8 * L - 1) := by omega
        have : ((m : ℤ) + 1) ≤ 2 ^ (8 * L - 1) := by exact_mod_cast hmle1
        omega
      · have : (0 : ℤ) < 2 ^ (8 * L - 1) := by positivity
        omega
    refine ⟨by rw [hlength]; exact hfits, ?_, ?_, ?_⟩
    · intro L' ⟨hL'1, hlow, _⟩
      rw [hlength, hL]
      have : ((m : ℤ)) < 2 ^ (8 * L' - 1) := by omega
      have hm' : m < 2 ^ (8 * L' - 1) := by exact_mod_cast this
      have := (bitLength_le_iff m (8 * L' - 1)).2 hm'
      omega
    · rw [fromSignedBE, hlen, toBytesBE_length, beVal_toBytesBE]
      have h256 : (256 : ℕ) ^ L = 2 ^ (8 * L) := by
        rw [show (256 : ℕ) = 2 ^ 8 from rfl, ← pow_mul]
      have huM : u < 2 ^ (8 * L) := by omega
      rw [h256, Nat.mod_eq_of_lt huM]
      have hbranch : ¬ (2 * u < 2 ^ (8 * L)) := by omega
      rw [if_neg hbranch]
      have hcastM : ((2 : ℤ) ^ (8 * L)) = (((2 : ℕ) ^ (8 * L) : ℕ) : ℤ) := by push_cast; rfl
      rw [hcastM]
      have hmle : m + 1 ≤ 2 ^ (8 * L) := by omega
      omega
    · rw [hlen]
      exact toBytesBE_mem_lt _ _
  · -- zero
    subst hzero
    have h0 : encode_int 0 = [0] := by rw [encode_int, if_pos rfl]
    refine ⟨?_, ?_, ?_, ?_⟩
    · rw [h0]
      exact ⟨le_rfl, by norm_num, by norm_num⟩
    · intro L hf
      rw [h0]
      exact hf.1
    · rw [h0]
      norm_num [fromSignedBE, beVal]
    · rw [h0]
      simp
  · -- positive
    obtain ⟨m, rfl⟩ : ∃ m : ℕ, n = ((m : ℤ) + 1) := ⟨(n - 1).toNat, by omega⟩
    have hne : ((m : ℤ) + 1) ≠ 0 := by omega
    have hnlt : ¬ (((m : ℤ) + 1) < 0) := by omega
    have htn : (((m : ℤ) + 1)).toNat = m + 1 := by omega
    set bl := bitLength (m + 1) with hbl
    have hbl1 : 1 ≤ bl := by
      by_contra hc
      have : bl ≤ 0 := by omega
      have := (bitLength_le_iff (m + 1) 0).1 this
      simp at this
    have hlen : encode_int ((m : ℤ) + 1)
        = toBytesBE ((((m : ℤ) + 1)) % ((2 : ℤ) ^ (8 * ((bl + 8) / 8))) |>.toNat) ((bl + 8) / 8) := by
      rw [encode_int, if_neg hne, if_neg hnlt, htn]
      have : max 1 ((bl + 8) / 8) = (bl + 8) / 8 := by omega
      rw [this]
    set L := (bl + 8) / 8 with hL
    have hL1 : 1 ≤ L := by omega
    have hblL : bl ≤ 8 * L - 1 := by omega
    have hmP : m + 1 < 2 ^ (8 * L - 1) := (bitLength_le_iff (m + 1) (8 * L - 1)).1 hblL
    have hMP : (2 : ℕ) ^ (8 * L) = 2 * 2 ^ (8 * L - 1) := by
      rw [← pow_succ']
      congr 1
      omega
    have hmodeq : (((m : ℤ) + 1)) % ((2 : ℤ) ^ (8 * L)) = ((m : ℤ) + 1) := by
      apply Int.emod_eq_of_lt (by omega)
      have : ((m : ℤ) + 1) < 2 ^ (8 * L - 1) := by exact_mod_cast hmP
      have h2 : ((2 : ℤ)) ^ (8 * L) = 2 * 2 ^ (8 * L - 1) := by exact_mod_cast hMP
      omega
    have hufact : ((((m : ℤ) + 1)) % ((2 : ℤ) ^ (8 * L))).toNat = m + 1 := by
      rw [hmodeq]
      omega
    rw [hufact] at hlen
    have hlength : (encode_int ((m : ℤ) + 1)).length = L := by
      rw [hlen, toBytesBE_length]
    refine ⟨?_, ?_, ?_, ?_⟩
    · rw [hlength]
      refine ⟨hL1, ?_, by exact_mod_cast hmP⟩
      have : (0 : ℤ) < 2 ^ (8 * L - 1) := by positivity
      omega
    · intro L' ⟨hL'1, _, hup⟩
      rw [hlength, hL]
      have hm' : m + 1 < 2 ^ (8 * L' - 1) := by exact_mod_cast hup
      have := (bitLength_le_iff (m + 1) (8 * L' - 1)).2 hm'
      omega
    · rw [fromSignedBE, hlen, toBytesBE_length, beVal_toBytesBE]
      have h256 : (256 : ℕ) ^ L = 2 ^ (8 * L) := by
        rw [show (256 : ℕ) = 2 ^ 8 from rfl, ← pow_mul]
      have huM : m + 1 < 2 ^ (8 * L) := by omega
      rw [h256, Nat.mod_eq_of_lt huM]
      have hbranch : 2 * (m + 1) < 2 ^ (8 * L) := by omega
      rw [if_pos hbranch]
      push_cast
      ring
    · rw [hlen]
      exact toBytesBE_mem_lt _ _

theorem encodeItems_ok (l : List Value) (h : ∀ v ∈ l, ∃ e, encodeVal v = .ok e) :
    encodeItems l = .ok (l.map encOf) := by
  induction l with
  | nil => simp [encodeItems]
  | cons v rest ih =>
      obtain ⟨e, he⟩ := h v (List.mem_cons_self v rest)
      have hrest := ih (fun w hw => h w (List.mem_cons_of_mem v hw))
      simp only [encodeItems, he, hrest, List.map_cons]
      simp [encOf, he]

theorem encodePairs_ok (l : List (Value × Value))
    (h : ∀ p ∈ l, (∃ e, encodeVal p.1 = .ok e) ∧ ∃ e, encodeVal p.2 = .ok e) :
    encodePairs l = .ok (l.map fun p => (encOf p.1, encOf p.2)) := by
  induction l with
  | nil => simp [encodePairs]
  | cons p rest ih =>
      obtain ⟨⟨ke, hke⟩, ve, hve⟩ := h p (List.mem_cons_self p rest)
      have hrest := ih (fun q hq => h q (List.mem_cons_of_mem p hq))
      obtain ⟨k, v⟩ := p
      simp only [encodePairs, hke, hve, hrest, List.map_cons]
      simp [encOf, hke, hve]

mutual

theorem encodeVal_total : ∀ (v : Value), hasUnsup v = false → ∃ e, encodeVal v = .ok e
  | .pynone, _ => ⟨[0x4E], by simp only [encodeVal]⟩
  | .pybool b, _ => ⟨[0x42, if b then 1 else 0], by simp only [encodeVal]⟩
  | .pyint n, _ =>
      ⟨0x49 :: (encLen (encode_int n).length ++ encode_int n), by simp only [encodeVal]⟩
  | .pyfloat bits, _ => ⟨0x46 :: bits, by simp only [encodeVal]⟩
  | .pybytes d, _ => ⟨0x59 :: (encLen d.length ++ d), by simp only [encodeVal]⟩
  | .pystr u, _ => ⟨0x53 :: (encLen u.length ++ u), by simp only [encodeVal]⟩
  | .pylist items, h => by
      obtain ⟨es, hes⟩ := encodeItems_total items (by simpa [hasUnsup] using h)
      exact ⟨0x4C :: (encLen items.length ++ es.flatten), by simp only [encodeVal, hes]⟩
  | .pytuple items, h => by
      obtain ⟨es, hes⟩ := encodeItems_total items (by simpa [hasUnsup] using h)
      exact ⟨0x54 :: (encLen items.length ++ es.flatten), by simp only [encodeVal, hes]⟩
  | .pyset items, h => by
      obtain ⟨es, hes⟩ := encodeItems_total items (by simpa [hasUnsup] using h)
      exact ⟨0x45 :: (encLen es.length ++
          ((List.insertionSort (· ≤ ·) es).map (fun c => encLen c.length ++ c)).flatten),
        by simp only [encodeVal, hes]⟩
  | .pydict pairs, h => by
      obtain ⟨e, he⟩ := encodeMapping_total pairs (by simpa [hasUnsup] using h)
      exact ⟨e, by simp only [encodeVal, he]⟩
  | .pyobj ty fields, h => by
      obtain ⟨e, he⟩ := encodeMapping_total fields (by simpa [hasUnsup] using h)
      exact ⟨0x4F :: (encLen ty.length ++ ty ++ e), by simp only [encodeVal, he]⟩
  | .pyother t, h => by simp [hasUnsup] at h
termination_by v => (sizeOf v, 1)

theorem encodeMapping_total : ∀ (ps : List (Value × Value)), hasUnsupPairs ps = false →
    ∃ e, encodeMapping ps = .ok e
  | ps, h => by
      obtain ⟨es, hes⟩ := encodePairs_total ps h
      exact ⟨0x44 :: (encLen es.length ++
          ((List.insertionSort keyLe es).map
            (fun p => encLen p.1.length ++ p.1 ++ encLen p.2.length ++ p.2)).flatten),
        by simp only [encodeMapping, hes]⟩
termination_by ps => (sizeOf ps, 1)

theorem encodeItems_total : ∀ (l : List Value), hasUnsupList l = false →
    ∃ es, encodeItems l = .ok es
  | [], _ => ⟨[], by simp only [encodeItems]⟩
  | v :: rest, h => by
      rw [hasUnsupList, Bool.or_eq_false_iff] at h
      obtain ⟨e, he⟩ := encodeVal_total v h.1
      obtain ⟨es, hes⟩ := encodeItems_total rest h.2
      exact ⟨e :: es, by simp only [encodeItems, he, hes]⟩
termination_by l => (sizeOf l, 0)

theorem encodePairs_total : ∀ (ps : List (Value × Value)), hasUnsupPairs ps = false →
    ∃ es, encodePairs ps = .ok es
  | [], _ => ⟨[], by simp only [encodePairs]⟩
  | (k, v) :: rest, h => by
      rw [hasUnsupPairs, Bool.or_eq_false_iff, Bool.or_eq_false_iff] at h
      obtain ⟨ke, hke⟩ := encodeVal_total k h.1.1
      obtain ⟨ve, hve⟩ := encodeVal_total v h.1.2
      obtain ⟨es, hes⟩ := encodePairs_total rest h.2
      exact ⟨(ke, ve) :: es, by simp only [encodePairs, hke, hve, hes]⟩
termination_by ps => (sizeOf ps, 0)

end

mutual

theorem encodeVal_unsup : ∀ (v : Value), hasUnsup v = true →
    ∃ t, encodeVal v = .error (unsupMsg t)
  | .pynone, h => by simp [hasUnsup] at h
  | .pybool b, h => by simp [hasUnsup] at h
  | .pyint n, h => by simp [hasUnsup] at h
  | .pyfloat bits, h => by simp [hasUnsup] at h
  | .pybytes d, h => by simp [hasUnsup] at h
  | .pystr u, h => by simp [hasUnsup] at h
  | .pylist items, h => by
      obtain ⟨t, ht⟩ := encodeItems_unsup items (by simpa [hasUnsup] using h)
      exact ⟨t, by simp only [encodeVal, ht]⟩
  | .pytuple items, h => by
      obtain ⟨t, ht⟩ := encodeItems_unsup items (by simpa [hasUnsup] using h)
      exact ⟨t, by simp only [encodeVal, ht]⟩
  | .pyset items, h => by
      obtain ⟨t, ht⟩ := encodeItems_unsup items (by simpa [hasUnsup] using h)
      exact ⟨t, by simp only [encodeVal, ht]⟩
  | .pydict pairs, h => by
      obtain ⟨t, ht⟩ := encodeMapping_unsup pairs (by simpa [hasUnsup] using h)
      exact ⟨t, by simp only [encodeVal, ht]⟩
  | .pyobj ty fields, h => by
      obtain ⟨t, ht⟩ := encodeMapping_unsup fields (by simpa [hasUnsup] using h)
      exact ⟨t, by simp only [encodeVal, ht]⟩
  | .pyother t, _ => ⟨t, by simp only [encodeVal, unsupMsg]⟩
termination_by v => (sizeOf v, 1)

theorem encodeMapping_unsup : ∀ (ps : List (Value × Value)), hasUnsupPairs ps = true →
    ∃ t, encodeMapping ps = .error (unsupMsg t)
  | ps, h => by
      obtain ⟨t, ht⟩ := encodePairs_unsup ps h
      exact ⟨t, by simp only [encodeMapping, ht]⟩
termination_by ps => (sizeOf ps, 1)

theorem encodeItems_unsup : ∀ (l : List Value), hasUnsupList l = true →
    ∃ t, encodeItems l = .error (unsupMsg t)
  | [], h => by simp [hasUnsupList] at h
  | v :: rest, h => by
      cases hv : hasUnsup v with
      | true =>
          obtain ⟨t, ht⟩ := encodeVal_unsup v hv
          exact ⟨t, by simp only [encodeItems, ht]⟩
      | false =>
          obtain ⟨e, he⟩ := encodeVal_total v hv
          have hrest : hasUnsupList rest = true := by
            rw [hasUnsupList, hv, Bool.false_or] at h
            exact h
          obtain ⟨t, ht⟩ := encodeItems_unsup rest hrest
          exact ⟨t, by simp only [encodeItems, he, ht]⟩
termination_by l => (sizeOf l, 0)

theorem encodePairs_unsup : ∀ (ps : List (Value × Value)), hasUnsupPairs ps = true →
    ∃ t, encodePairs ps = .error (unsupMsg t)
  | [], h => by simp [hasUnsupPairs] at h
  | (k, v) :: rest, h => by
      cases hk : hasUnsup k with
      | true =>
          obtain ⟨t, ht⟩ := encodeVal_unsup k hk
          exact ⟨t, by simp only [encodePairs, ht]⟩
      | false =>
          obtain ⟨ke, hke⟩ := encodeVal_total k hk
          cases hv : hasUnsup v with
          | true =>
              obtain ⟨t, ht⟩ := encodeVal_unsup v hv
              exact ⟨t, by simp only [encodePairs, hke, ht]⟩
          | false =>
              obtain ⟨ve, hve⟩ := encodeVal_total v hv
              have hrest : hasUnsupPairs rest = true := by
                rw [hasUnsupPairs, hk, hv] at h
                simpa using h
              obtain ⟨t, ht⟩ := encodePairs_unsup rest hrest
              exact ⟨t, by simp only [encodePairs, hke, hve, ht]⟩
termination_by ps => (sizeOf ps, 0)

end

theorem items_ok_of_not_unsup (l : List Value) (h : hasUnsupList l = false) :
    ∀ v ∈ l, ∃ e, encodeVal v = .ok e := by
  induction l with
  | nil => simp
  | cons v rest ih =>
      rw [hasUnsupList, Bool.or_eq_false_iff] at h
      intro w hw
      rcases List.mem_cons.1 hw with rfl | hw2
      · exact encodeVal_total w h.1
      · exact ih h.2 w hw2

theorem pairs_ok_of_not_unsup (ps : List (Value × Value)) (h : hasUnsupPairs ps = false) :
    ∀ p ∈ ps, (∃ e, encodeVal p.1 = .ok e) ∧ ∃ e, encodeVal p.2 = .ok e := by
  induction ps with
  | nil => simp
  | cons q rest ih =>
      obtain ⟨k, v⟩ := q
      rw [hasUnsupPairs, Bool.or_eq_false_iff, Bool.or_eq_false_iff] at h
      intro p hp
      rcases List.mem_cons.1 hp with rfl | hp2
      · exact ⟨encodeVal_total k h.1.1, encodeVal_total v h.1.2⟩
      · exact ih h.2 p hp2

/-! ## Claim theorems -/

set_option maxRecDepth 100000

/-- C1: keyed with `00 01 ... 0F` and fed the n-byte messages
`[], [0], [0,1], ..., [0..62]`, the SipHash engine reproduces the published
SipHash-2-4 reference vector table for every length 0 ≤ n ≤ 63; the spot
values of length 0, 8 and 63 appear at the corresponding positions. -/
theorem siphash_reference_vectors :
    (List.range 64).map sipVector =
      ["310e0edd47db6f72", "fd67dc93c539f874", "5a4fa9d909806c0d", "2d7efbd796666785",
       "b7877127e09427cf", "8da699cd64557618", "cee3fe586e46c9cb", "37d1018bf50002ab",
       "6224939a79f5f593", "b0e4a90bdf82009e", "f3b9dd94c5bb5d7a", "a7ad6b22462fb3f4",
       "fbe50e86bc8f1e75", "903d84c02756ea14", "eef27a8e90ca23f7", "e545be4961ca29a1",
       "db9bc2577fcc2a3f", "9447be2cf5e99a69", "9cd38d96f0b3c14b", "bd6179a71dc96dbb",
       "98eea21af25cd6be", "c7673b2eb0cbf2d0", "883ea3e395675393", "c8ce5ccd8c030ca8",
       "94af49f6c650adb8", "eab8858ade92e1bc", "f315bb5bb835d817", "adcf6b0763612e2f",
       "a5c91da7acaa4dde", "716595876650a2a6", "28ef495c53a387ad", "42c341d8fa92d832",
       "ce7cf2722f512771", "e37859f94623f3a7", "381205bb1ab0e012", "ae97a10fd434e015",
       "b4a31508beff4d31", "81396229f0907902", "4d0cf49ee5d4dcca", "5c73336a76d8bf9a",
       "d0a704536ba93e0e", "925958fcd6420cad", "a915c29bc8067318", "952b79f3bc0aa6d4",
       "f21df2e41d4535f9", "87577519048f53a9", "10a56cf5dfcd9adb", "eb75095ccd986cd0",
       "51a9cb9ecba312e6", "96afadfc2ce666c7", "72fe52975a4364ee", "5a1645b276d592a1",
       "b274cb8ebf87870a", "6f9bb4203de7b381", "eaecb2a30b22a87f", "9924a43cc1315724",
       "bd838d3aafbf8db7", "0b1a2a3265d51aea", "135079a3231ce660", "932b2846e4d70666",
       "e1915f5cb1eca46c", "f325965ca16d629f", "575ff28e60381be5", "724506eb4c328a95"]
      ∧ sipVector 0 = "310e0edd47db6f72"
      ∧ sipVector 8 = "6224939a79f5f593"
      ∧ sipVector 63 = "724506eb4c328a95" := by
  refine ⟨by decide, by decide, by decide, by decide⟩

/-- C7: reading a digest in any of the three views leaves every field of the
hasher state unchanged (the finalization work happens on a copy), the copy
itself agrees with the original field by field, and updating after a digest
read behaves exactly as updating the untouched state — so mutating a clone
can never change the original. -/
theorem digest_reads_preserve_state (s : SipHash24) :
    (sipDigestSt s).2 = s
      ∧ (sipHexdigestSt s).2 = s
      ∧ (sipIntdigestSt s).2 = s
      ∧ sipCopy s = s
      ∧ (∀ d, sipUpdate (sipDigestSt s).2 d = sipUpdate s d)
      ∧ (∀ d, sipUpdate (sipCopy s) d = sipUpdate s d) := by
  refine ⟨rfl, rfl, rfl, ?_, fun d => rfl, fun d => ?_⟩
  · cases s; rfl
  · cases s; rfl

/-- C8: the constructor rejects a byte-like key that is not exactly 16 bytes
with the `ValueError` (Invalid-Key), rejects a non-byte-like key with a
`TypeError`, and accepts every 16-byte byte-like key; `update` rejects
non-byte-like data with a `TypeError` and treats `bytes`, `bytearray` and
`memoryview` content uniformly. -/
theorem key_and_update_validation :
    (∀ key : PyData, key.isBytesLike = true → key.toBytes.length ≠ 16 →
        sipInit key = .error (.valueError "SipHash24 key must be exactly 16 bytes"))
      ∧ (∀ t, sipInit (.other t) = .error (.typeError "key must be bytes-like"))
      ∧ (∀ key : PyData, key.isBytesLike = true → key.toBytes.length = 16 →
          sipInit key = .ok (sipInitRaw key.toBytes))
      ∧ (∀ s t, sipUpdateChecked s (.other t) = .error (.typeError "data must be bytes-like"))
      ∧ (∀ s d, sipUpdateChecked s (.bytes d) = .ok (sipUpdate s d)
          ∧ sipUpdateChecked s (.bytearray d) = .ok (sipUpdate s d)
          ∧ sipUpdateChecked s (.memoryview d) = .ok (sipUpdate s d)) := by
  refine ⟨?_, ?_, ?_, ?_, ?_⟩
  · intro key hb hlen
    simp [sipInit, hb, hlen]
  · intro t; rfl
  · intro key hb hlen
    simp [sipInit, hb, hlen]
  · intro s t; rfl
  · intro s d; exact ⟨rfl, rfl, rfl⟩

/-- C8 witness: a 5-byte key is rejected as Invalid-Key, a 16-byte key is
accepted, a non-byte-like key and non-byte-like update data raise
`TypeError`, and the three byte-like forms update identically. -/
theorem key_and_update_validation_witness :
    sipInit (.bytes [48, 48, 48, 48, 48])
        = .error (.valueError "SipHash24 key must be exactly 16 bytes")
      ∧ sipInit (.bytes (List.replicate 16 0)) = .ok (sipInitRaw (List.replicate 16 0))
      ∧ sipInit (.other "int") = .error (.typeError "key must be bytes-like")
      ∧ sipUpdateChecked (sipInitRaw (List.replicate 16 0)) (.other "str")
          = .error (.typeError "data must be bytes-like")
      ∧ sipUpdateChecked (sipInitRaw (List.replicate 16 0)) (.bytearray [1, 2, 3])
          = .ok (sipUpdate (sipInitRaw (List.replicate 16 0)) [1, 2, 3]) :=
  ⟨key_and_update_validation.1 (.bytes [48, 48, 48, 48, 48]) rfl (by decide),
   key_and_update_validation.2.2.1 (.bytes (List.replicate 16 0)) rfl (by decide),
   key_and_update_validation.2.1 "int",
   key_and_update_validation.2.2.2.1 (sipInitRaw (List.replicate 16 0)) "str",
   (key_and_update_validation.2.2.2.2 (sipInitRaw (List.replicate 16 0)) [1, 2, 3]).2.1⟩

/-- C10: a boolean canonicalizes to exactly the two bytes `B`, 0x01/0x00 —
never under the integer tag `I` — so `True` and `1` (and `False` and `0`)
have distinct canonical encodings. -/
theorem bool_encoding_distinct_from_int :
    (∀ b : Bool, encodeVal (.pybool b) = .ok [0x42, if b then 1 else 0])
      ∧ encodeVal (.pybool true) ≠ encodeVal (.pyint 1)
      ∧ encodeVal (.pybool false) ≠ encodeVal (.pyint 0) := by
  have h1 : ∀ b : Bool, encodeVal (.pybool b) = .ok [0x42, if b then 1 else 0] :=
    fun b => by simp [encodeVal]
  have h2 : ∀ n : Int,
      encodeVal (.pyint n) = .ok (0x49 :: (encLen (encode_int n).length ++ encode_int n)) :=
    fun n => by simp [encodeVal]
  refine ⟨h1, ?_, ?_⟩
  · rw [h1 true, h2 1]
    intro h
    exact absurd (congrArg List.length (Except.ok.inj h)) (by decide)
  · rw [h1 false, h2 0]
    intro h
    exact absurd (congrArg List.length (Except.ok.inj h)) (by decide)

/-- C5: for the SipHash engine, `update(a); update(b)` reaches exactly the
same state (hence the same digest) as the single call `update(a ++ b)`; a
trailing empty update is a no-op on a reached state, and any further
chunking of the input into a sequence of update calls gives the same state
as one update with the concatenation. -/
theorem update_chunking_invariance (s : SipHash24) (a b : List Nat) :
    sipUpdate (sipUpdate s a) b = sipUpdate s (a ++ b)
    ∧ sipDigest (sipUpdate (sipUpdate s a) b) = sipDigest (sipUpdate s (a ++ b))
    ∧ sipUpdate (sipUpdate s a) [] = sipUpdate s a
    ∧ ∀ chunks : List (List Nat),
        List.foldl sipUpdate (sipUpdate s a) chunks = sipUpdate s ((a :: chunks).flatten) := by
  have h := sipUpdate_chunk s a b
  refine ⟨h, by rw [h], ?_, sipUpdate_foldl s a⟩
  have h2 := sipUpdate_chunk s a []
  rwa [List.append_nil] at h2

/-- C2: the canonical integer encoding is the tag `I`, the 8-byte
little-endian length of the payload, then the payload `encode_int n`, which
is the big-endian two's-complement representation of `n` at the smallest
byte count (at least 1) in which `n` fits as a signed value: the payload
length admits `n` (`SignedFits`), no admissible length is smaller, the
payload decodes back to `n` as a signed big-endian number, every payload
byte is a byte, and the five reference values have the published payloads. -/
theorem int_minimal_encoding :
    (∀ n : Int,
        encodeVal (.pyint n) = .ok (0x49 :: (encLen (encode_int n).length ++ encode_int n))
        ∧ SignedFits n (encode_int n).length
        ∧ (∀ L, SignedFits n L → (encode_int n).length ≤ L)
        ∧ fromSignedBE (encode_int n) = n
        ∧ ∀ b ∈ encode_int n, b < 256)
    ∧ encode_int 0 = [0x00]
    ∧ encode_int 1 = [0x01]
    ∧ encode_int (-1) = [0xFF]
    ∧ encode_int (2 ^ 63 - 1) = [0x7F, 0xFF, 0xFF, 0xFF, 0xFF, 0xFF, 0xFF, 0xFF]
    ∧ encode_int (-(2 ^ 63)) = [0x80, 0, 0, 0, 0, 0, 0, 0] := by
  refine ⟨fun n => ?_, by decide, by decide, by decide, by decide, by decide⟩
  obtain ⟨h1, h2, h3, h4⟩ := encode_int_spec n
  exact ⟨by simp [encodeVal], h1, h2, h3, h4⟩

/-- C2 witness: at `n = 300` the payload is two bytes, two bytes admit 300,
no admissible length is smaller, the payload decodes back to 300 and the
byte `44 = 0x2C` of the payload is below 256. -/
theorem int_minimal_encoding_witness :
    (encode_int 300).length ≤ 2 ∧ 44 < 256 ∧ fromSignedBE (encode_int 300) = 300 :=
  ⟨(int_minimal_encoding.1 300).2.2.1 2 ⟨by norm_num, by decide, by decide⟩,
   (int_minimal_encoding.1 300).2.2.2.2 44 (by decide),
   (int_minimal_encoding.1 300).2.2.2.1⟩

/-- C4: encoding a set writes tag `E`, the 8-byte item count, then each
item's encoding length-prefixed, with the encoded items sorted
lexicographically by their bytes — so any two iteration orders of the same
canonicalizable elements produce a byte-identical canonical encoding. -/
theorem set_encoding_perm_invariant (items₁ items₂ : List Value)
    (hok : ∀ v ∈ items₁, ∃ e, encodeVal v = .ok e)
    (hperm : items₁.Perm items₂) :
    encodeVal (.pyset items₁) = encodeVal (.pyset items₂)
    ∧ encodeVal (.pyset items₁)
        = .ok (0x45 :: (encLen items₁.length ++
            ((List.insertionSort (· ≤ ·) (items₁.map encOf)).map
              (fun c => encLen c.length ++ c)).flatten)) := by
  have hok₂ : ∀ v ∈ items₂, ∃ e, encodeVal v = .ok e := fun v hv => hok v (hperm.mem_iff.2 hv)
  have h₁ := encodeItems_ok items₁ hok
  have h₂ := encodeItems_ok items₂ hok₂
  have hsort : List.insertionSort (· ≤ ·) (items₁.map encOf)
      = List.insertionSort (· ≤ ·) (items₂.map encOf) :=
    @List.eq_of_perm_of_sorted (List Nat) (· ≤ ·) _ _ _
      ((List.perm_insertionSort _ _).trans ((hperm.map encOf).trans (List.perm_insertionSort _ _).symm))
      (List.sorted_insertionSort _ _) (List.sorted_insertionSort _ _)
  constructor
  · simp only [encodeVal, h₁, h₂]
    simp only [List.length_map, hsort, hperm.length_eq]
  · simp only [encodeVal, h₁]
    simp only [List.length_map]

/-- C4 witness: the two orders of the set {1, None} encode identically. -/
theorem set_encoding_perm_invariant_witness :
    encodeVal (.pyset [.pyint 1, .pynone]) = encodeVal (.pyset [.pynone, .pyint 1]) :=
  (set_encoding_perm_invariant [.pyint 1, .pynone] [.pynone, .pyint 1]
    (items_ok_of_not_unsup _ (by simp [hasUnsupList, hasUnsup]))
    (List.Perm.swap _ _ _)).1

/-- C3: for a mapping — a pair list whose encoded keys are pairwise
distinct — any two insertion orders of the same canonicalizable key-value
pairs produce an identical canonical encoding, and hence an identical
digest through `stable_keyed_hash` for every key and algorithm name. -/
theorem mapping_order_invariance (ps₁ ps₂ : List (Value × Value))
    (hok : ∀ p ∈ ps₁, (∃ e, encodeVal p.1 = .ok e) ∧ ∃ e, encodeVal p.2 = .ok e)
    (hkeys : (ps₁.map fun p => encOf p.1).Nodup)
    (hperm : ps₁.Perm ps₂) :
    encodeVal (.pydict ps₁) = encodeVal (.pydict ps₂)
    ∧ ∀ (key : PyData) (algo : String),
        stableKeyedHash (.pydict ps₁) key algo = stableKeyedHash (.pydict ps₂) key algo := by
  have hok₂ : ∀ p ∈ ps₂, (∃ e, encodeVal p.1 = .ok e) ∧ ∃ e, encodeVal p.2 = .ok e :=
    fun p hp => hok p (hperm.mem_iff.2 hp)
  have h₁ := encodePairs_ok ps₁ hok
  have h₂ := encodePairs_ok ps₂ hok₂
  have henc : encodeVal (.pydict ps₁) = encodeVal (.pydict ps₂) := by
    set f : Value × Value → List Nat × List Nat := fun p => (encOf p.1, encOf p.2) with hf
    have hpermf : (ps₁.map f).Perm (ps₂.map f) := hperm.map f
    have hs₁ := List.sorted_insertionSort keyLe (ps₁.map f)
    have hs₂ := List.sorted_insertionSort keyLe (ps₂.map f)
    have hps : (List.insertionSort keyLe (ps₁.map f)).Perm (List.insertionSort keyLe (ps₂.map f)) :=
      (List.perm_insertionSort _ _).trans (hpermf.trans (List.perm_insertionSort _ _).symm)
    have hkeys₁ : ((List.insertionSort keyLe (ps₁.map f)).map Prod.fst).Nodup := by
      have hp : ((List.insertionSort keyLe (ps₁.map f)).map Prod.fst).Perm
          ((ps₁.map f).map Prod.fst) := (List.perm_insertionSort keyLe (ps₁.map f)).map Prod.fst
      rw [hp.nodup_iff]
      rw [List.map_map]
      exact hkeys
    have hkeys₂ : ((List.insertionSort keyLe (ps₂.map f)).map Prod.fst).Nodup := by
      have hp : ((List.insertionSort keyLe (ps₂.map f)).map Prod.fst).Perm
          ((ps₁.map f).map Prod.fst) :=
        ((List.perm_insertionSort keyLe (ps₂.map f)).map Prod.fst).trans (hpermf.symm.map Prod.fst)
      rw [hp.nodup_iff]
      rw [List.map_map]
      exact hkeys
    have hstrict : ∀ (l : List (List Nat × List Nat)), List.Sorted keyLe l →
        (l.map Prod.fst).Nodup → List.Sorted keyLt l := by
      intro l hs hn
      rw [List.Sorted] at hs ⊢
      have hne : l.Pairwise (fun p q => p.1 ≠ q.1) := List.pairwise_map.1 hn
      exact (hs.and hne).imp (fun h => lt_of_le_of_ne h.1 h.2)
    have heq : List.insertionSort keyLe (ps₁.map f) = List.insertionSort keyLe (ps₂.map f) :=
      @List.eq_of_perm_of_sorted (List Nat × List Nat) keyLt _ _ _
        hps (hstrict _ hs₁ hkeys₁) (hstrict _ hs₂ hkeys₂)
    simp only [encodeVal, encodeMapping, h₁, h₂]
    simp only [heq, List.length_map, hperm.length_eq]
  exact ⟨henc, fun key algo => by simp only [stableKeyedHash, henc]⟩

/-- C3 witness: the two insertion orders of the mapping
None → 1, True → 2 encode and hash identically. -/
theorem mapping_order_invariance_witness :
    encodeVal (.pydict [(.pynone, .pyint 1), (.pybool true, .pyint 2)])
      = encodeVal (.pydict [(.pybool true, .pyint 2), (.pynone, .pyint 1)])
    ∧ stableKeyedHash (.pydict [(.pynone, .pyint 1), (.pybool true, .pyint 2)])
        (.bytes (List.replicate 16 0)) "siphash24"
      = stableKeyedHash (.pydict [(.pybool true, .pyint 2), (.pynone, .pyint 1)])
        (.bytes (List.replicate 16 0)) "siphash24" := by
  have h := mapping_order_invariance
    [(.pynone, .pyint 1), (.pybool true, .pyint 2)]
    [(.pybool true, .pyint 2), (.pynone, .pyint 1)]
    (pairs_ok_of_not_unsup _ (by simp [hasUnsupPairs, hasUnsup]))
    (by simp [encOf, encodeVal])
    (List.Perm.swap _ _ _)
  exact ⟨h.1, h.2 (.bytes (List.replicate 16 0)) "siphash24"⟩

/-- C9: for the same elements in the same order, the ordered-sequence
(list) and fixed-sequence (tuple) canonical encodings share the count and
element payload byte-for-byte and differ exactly in the leading tag byte
(`L` = 0x4C versus `T` = 0x54), so the two encodings are never equal. -/
theorem list_tuple_tag_discrimination (items : List Value)
    (hok : ∀ v ∈ items, ∃ e, encodeVal v = .ok e) :
    encodeVal (.pylist items)
        = .ok (0x4C :: (encLen items.length ++ (items.map encOf).flatten))
    ∧ encodeVal (.pytuple items)
        = .ok (0x54 :: (encLen items.length ++ (items.map encOf).flatten))
    ∧ encodeVal (.pylist items) ≠ encodeVal (.pytuple items) := by
  have h := encodeItems_ok items hok
  refine ⟨by simp only [encodeVal, h], by simp only [encodeVal, h], ?_⟩
  simp only [encodeVal, h]
  simp

/-- C9 witness: the list and tuple holding the single element None have
different canonical encodings. -/
theorem list_tuple_tag_discrimination_witness :
    encodeVal (.pylist [.pynone]) ≠ encodeVal (.pytuple [.pynone]) :=
  (list_tuple_tag_discrimination [.pynone]
    (items_ok_of_not_unsup _ (by simp [hasUnsupList, hasUnsup]))).2.2

/-- C6: a value containing a component of an unsupported kind with no
field mapping makes the encoder — and `stable_keyed_hash` with a valid
16-byte key — fail with the Unsupported-Type `TypeError` naming a runtime
type, and no digest is ever returned. -/
theorem unsupported_type_rejection (v : Value) (key : PyData)
    (hlike : key.isBytesLike = true) (hlen : key.toBytes.length = 16)
    (hv : hasUnsup v = true) :
    (∃ t, encodeVal v = .error (unsupMsg t))
    ∧ (∃ t, stableKeyedHash v key "siphash24" = .error (unsupMsg t))
    ∧ ∀ d, stableKeyedHash v key "siphash24" ≠ .ok d := by
  obtain ⟨t, ht⟩ := encodeVal_unsup v hv
  have hkey : sipInit key = .ok (sipInitRaw key.toBytes) := by
    simp [sipInit, hlike, hlen]
  have halgo : strLower "siphash24" = "siphash24" := by decide
  have hmain : stableKeyedHash v key "siphash24" = .error (unsupMsg t) := by
    simp [stableKeyedHash, halgo, hkey, ht]
  exact ⟨⟨t, ht⟩, ⟨t, hmain⟩, fun d hc => by rw [hmain] at hc; exact Except.noConfusion hc⟩

/-- C6 witness: hashing a list containing a slots-only object fails with
the Unsupported-Type error under a valid 16-byte key. -/
theorem unsupported_type_rejection_witness :
    ∃ t, stableKeyedHash (.pylist [.pyint 1, .pyother "ExampleSlots"])
        (.bytes (List.replicate 16 0)) "siphash24" = .error (unsupMsg t) :=
  (unsupported_type_rejection (.pylist [.pyint 1, .pyother "ExampleSlots"])
    (.bytes (List.replicate 16 0)) rfl (by decide)
    (by simp [hasUnsup, hasUnsupList])).2.1
